import Mathlib

/-!
A shallow embedding of the cgxeiji/servo package: the per-servo motion
state machine of servo.go and the pi-blaster dispatcher loop of blaster.go.

Real-valued quantities (float64 in the source) are modelled as rationals.
Wall-clock instants (time.Time) are modelled as rational timestamps; an
operation that reads time.Now() takes the current instant as an explicit
argument.  Condition-variable broadcasts have no state of their own, so an
operation that may broadcast returns a Bool recording whether the source
called Broadcast on that path.
-/

/-- gpio is the GPIO pin number type of blaster.go (type gpio int). -/
abbrev gpio := Int

/-- pwm is the duty-value type of blaster.go (type pwm float64). -/
abbrev pwm := ℚ

/-- flag is the configuration bit-flag type of servo.go (type flag uint8). -/
abbrev flag := Nat

/-- Centered sets the range of the servo from -90 to 90 degrees (bit 1). -/
def Centered : flag := 1

/-- Normalized sets the range of the servo from 0 to 2 (bit 2). -/
def Normalized : flag := 2

/-- is checks if the given bits are set in the flag (servo.go, flag.is). -/
def flag.is (f bits : flag) : Bool := f &&& bits != 0

/-- Servo is the state of one servo motor (servo.go, struct Servo).  The
lock, the done channel and the condition variable carry no sequential data
and are omitted; deltaT is the timestamp of the previous sample. -/
structure Servo where
  pin : gpio
  Flags : flag
  MinPulse : ℚ
  MaxPulse : ℚ
  target : ℚ
  position : ℚ
  deltaT : ℚ
  lastPWM : pwm
  step : ℚ
  maxStep : ℚ
  idle : Bool

/-- maxS is the maximum degrees per second for a typical servo of speed
0.19s per 60 degrees (the constant 315.7 in New, servo.go). -/
def maxS : ℚ := 3157 / 10

/-- New creates a new Servo struct with default values (servo.go, New).
Fields the Go code leaves zero-initialized are 0; the servo starts idle. -/
def Servo.New (gp : Int) : Servo where
  pin := gp
  Flags := 0
  MinPulse := 1 / 20
  MaxPulse := 1 / 4
  target := 0
  position := 0
  deltaT := 0
  lastPWM := 0
  step := maxS
  maxStep := maxS
  idle := true

/-- clamp bounds value to [min, max] (servo.go, clamp). -/
def clamp (value min max : ℚ) : ℚ :=
  let v1 := if value < min then min else value
  if v1 > max then max else v1

/-- remap affinely maps value from [min, max] to [toMin, toMax]
(servo.go, remap). -/
def remap (value min max toMin toMax : ℚ) : ℚ :=
  (value - min) / (max - min) * (toMax - toMin) + toMin

/-- Position returns the current angle of the servo, adjusted for its
Flags (servo.go, Servo.Position). -/
def Servo.Position (s : Servo) : ℚ :=
  let p := s.position
  let p := if flag.is s.Flags Centered then p - 90 else p
  let p := if flag.is s.Flags Normalized then p / 90 else p
  p

/-- moveTo applies the flag-based inverse transform to the requested
target, then under the lock snaps the target to the current position when
the speed is zero and otherwise clamps it to [0, 180], stamps deltaT with
the current instant and marks the servo as moving (servo.go,
Servo.moveTo). -/
def Servo.moveTo (s : Servo) (target : ℚ) (now : ℚ) : Servo :=
  let target := if flag.is s.Flags Normalized then target * 90 else target
  let target := if flag.is s.Flags Centered then target + 90 else target
  { s with
    target := if s.step = 0 then s.position else clamp target 0 180
    deltaT := now
    idle := false }

/-- SetSpeed changes the speed of the servo, clamping the percentage to
[0, 1] and scaling maxStep (servo.go, Servo.SetSpeed). -/
def Servo.SetSpeed (s : Servo) (percentage : ℚ) : Servo :=
  { s with step := s.maxStep * clamp percentage 0 1 }

/-- Stop sets the target position to the stopped position and marks the
servo idle; the Bool records that the source calls Broadcast
unconditionally on this path (servo.go, Servo.Stop). -/
def Servo.Stop (s : Servo) : Servo × Bool :=
  ({ s with target := s.position, idle := true }, true)

/-- SetPosition immediately sets the angle of the servo: the flag-based
inverse transform, then a clamp to [0, 180]; the target follows the new
position and the servo is marked as moving (servo.go,
Servo.SetPosition). -/
def Servo.SetPosition (s : Servo) (position : ℚ) : Servo :=
  let position := if flag.is s.Flags Normalized then position * 90 else position
  let position := if flag.is s.Flags Centered then position + 90 else position
  let p := clamp position 0 180
  { s with position := p, target := p, idle := false }

/-- pwm performs one interpolation step at instant now (servo.go,
Servo.pwm).  If the servo is idle at its target it returns the last pwm
and changes nothing.  Otherwise it advances the position by step times
the time elapsed since the previous sample (now - deltaT), snapping to
the target on arrival, remaps the new position from [0, 180] to
[MinPulse, MaxPulse] and stamps deltaT := now; the deferred block marks
the servo idle and broadcasts exactly when the new position equals the
target.  The result is (updated state, emitted pwm, whether Broadcast
was called). -/
def Servo.pwm (s : Servo) (now : ℚ) : Servo × pwm × Bool :=
  if s.position = s.target ∧ s.idle = true then
    (s, s.lastPWM, false)
  else
    let delta := (now - s.deltaT) * s.step
    let p :=
      if s.target < s.position then
        let q := s.position - delta
        if q ≤ s.target then s.target else q
      else
        let q := s.position + delta
        if q ≥ s.target then s.target else q
    let out := remap p 0 180 s.MinPulse s.MaxPulse
    if p = s.target then
      ({ s with position := p, lastPWM := out, deltaT := now, idle := true },
        out, true)
    else
      ({ s with position := p, lastPWM := out, deltaT := now }, out, false)

/-- isIdle checks if the servo is not moving (servo.go, Servo.isIdle). -/
def Servo.isIdle (s : Servo) : Bool := s.idle

/-- PwmReach s s2 holds when s2 arises from s by a sequence of pwm
sampling steps taken at non-decreasing instants: this is what the blaster
manager does to a subscribed servo between API calls, and what separates
a moveTo call from the moment Wait returns. -/
inductive PwmReach : Servo → Servo → Prop
  | refl (s : Servo) : PwmReach s s
  | step {s s2 : Servo} (now : ℚ) (h : PwmReach s s2) (hn : s2.deltaT ≤ now) :
      PwmReach s (s2.pwm now).1

/-- Reachable s holds when s arises from a fresh servo by the public
operations: setting the public Flags field, MoveTo, SetSpeed,
SetPosition, Stop, and the manager's pwm sampling at a non-decreasing
instant. -/
inductive Reachable : Servo → Prop
  | new (gp : Int) : Reachable (Servo.New gp)
  | setFlags {s : Servo} (f : flag) (h : Reachable s) :
      Reachable { s with Flags := f }
  | moveTo {s : Servo} (t now : ℚ) (h : Reachable s) :
      Reachable (s.moveTo t now)
  | setSpeed {s : Servo} (p : ℚ) (h : Reachable s) :
      Reachable (s.SetSpeed p)
  | setPosition {s : Servo} (p : ℚ) (h : Reachable s) :
      Reachable (s.SetPosition p)
  | stop {s : Servo} (h : Reachable s) : Reachable (s.Stop).1
  | pwm {s : Servo} (now : ℚ) (h : Reachable s) (hn : s.deltaT ≤ now) :
      Reachable (s.pwm now).1

/-- flagAdjustIn is the inverse transform the spec says moveTo applies to
user input: scale by 90 when Normalized, then shift by +90 when
Centered. -/
def flagAdjustIn (f : flag) (t : ℚ) : ℚ :=
  let t := if flag.is f Normalized then t * 90 else t
  if flag.is f Centered then t + 90 else t

/-- flagAdjustOut is the forward transform the spec says Position applies
to the internal angle: shift by -90 when Centered, then divide by 90 when
Normalized. -/
def flagAdjustOut (f : flag) (p : ℚ) : ℚ :=
  let p := if flag.is f Centered then p - 90 else p
  if flag.is f Normalized then p / 90 else p

/-- fracDigits6 renders n % 1000000 as exactly six decimal digits, the
fraction part of the %.6f verb. -/
def fracDigits6 (n : ℕ) : String :=
  String.mk [Nat.digitChar (n / 100000 % 10), Nat.digitChar (n / 10000 % 10),
    Nat.digitChar (n / 1000 % 10), Nat.digitChar (n / 100 % 10),
    Nat.digitChar (n / 10 % 10), Nat.digitChar (n % 10)]

/-- fixed6 renders a rational in fixed-point notation with six fractional
digits, rounding to nearest, mirroring the %.6f verb used by
blaster.flush. -/
def fixed6 (q : ℚ) : String :=
  let sign := if q < 0 then "-" else ""
  let scaled := (⌊|q| * 1000000 + 1 / 2⌋).toNat
  sign ++ toString (scaled / 1000000) ++ "." ++ fracDigits6 (scaled % 1000000)

/-- flushLine serializes the pending data in the "PIN=PWM PIN=PWM" format
built by the loop of blaster.flush: one " pin=value" token appended per
entry. -/
def flushLine (data : List (gpio × pwm)) : String :=
  data.foldl (fun acc e => acc ++ " " ++ toString e.1 ++ "=" ++ fixed6 e.2) ""

/-- flush builds the line for the pending data and writes it, skipping
the write when the builder is empty (blaster.go, blaster.flush).  The
result is the written line, or none when nothing is written. -/
def blaster.flush (data : List (gpio × pwm)) : Option String :=
  let s := flushLine data
  if s.length = 0 then none else some s

/-- flushTick is the flush-ticker arm of the manager loop: when the
pending data is non-empty it is flushed and replaced by a fresh empty
map, otherwise nothing happens (blaster.go, blaster.manager). -/
def flushTick (data : List (gpio × pwm)) : List (gpio × pwm) × Option String :=
  if data.length ≠ 0 then ([], blaster.flush data) else (data, none)

/-- dataSet models the Go map assignment data[pin] = v on an association
list. -/
def dataSet (data : List (gpio × pwm)) (pin : gpio) (v : pwm) :
    List (gpio × pwm) :=
  if data.any (fun e => e.1 = pin) then
    data.map (fun e => if e.1 = pin then (pin, v) else e)
  else
    data ++ [(pin, v)]

/-- regInsert models the Go map assignment _servos[pin] = servo on the
registry's key set. -/
def regInsert (reg : List gpio) (pin : gpio) : List gpio :=
  if pin ∈ reg then reg else reg ++ [pin]

/-- regErase models delete(_servos, pin) on the registry's key set. -/
def regErase (reg : List gpio) (pin : gpio) : List gpio :=
  reg.filter (fun p => p ≠ pin)

/-- updateFactor is the integer factor time.Duration(math.Log10(n+1)*3+1)
of blaster.manager: the float-to-Duration conversion truncates, and for
n ≥ 0 the truncation of log10(n+1)*3 + 1 equals ⌊log10((n+1)^3)⌋ + 1,
which is Nat.log 10 ((n+1)^3) + 1. -/
def updateFactor (n : ℕ) : ℕ :=
  Nat.log 10 ((n + 1) ^ 3) + 1

/-- sampleIntervalMs is the recomputed update-ticker period in
milliseconds: time.Duration(factor) * 3ms (blaster.go,
blaster.manager). -/
def sampleIntervalMs (n : ℕ) : ℕ :=
  updateFactor n * 3

/-- handleServoPkg is the subscribe/unsubscribe arm of the manager loop:
add or remove the pin from the registry, stage a neutral 0.0 value for
the pin on removal, and recompute the update-ticker interval from the new
registry size (blaster.go, blaster.manager).  The result is (new
registry, new pending data, new sample interval in ms). -/
def handleServoPkg (reg : List gpio) (data : List (gpio × pwm)) (pin : gpio)
    (add : Bool) : List gpio × List (gpio × pwm) × ℕ :=
  if add then
    (regInsert reg pin, data, sampleIntervalMs (regInsert reg pin).length)
  else
    (regErase reg pin, dataSet data pin 0,
      sampleIntervalMs (regErase reg pin).length)

/-! Helper lemmas shared between the claims. -/

lemma clamp_mem (v : ℚ) {lo hi : ℚ} (h : lo ≤ hi) :
    lo ≤ clamp v lo hi ∧ clamp v lo hi ≤ hi := by
  unfold clamp
  dsimp only
  split_ifs <;> constructor <;> linarith

lemma pwm_const (s : Servo) (now : ℚ) :
    (s.pwm now).1.target = s.target ∧ (s.pwm now).1.Flags = s.Flags ∧
    (s.pwm now).1.step = s.step ∧ (s.pwm now).1.maxStep = s.maxStep := by
  unfold Servo.pwm
  dsimp only
  split_ifs <;> exact ⟨rfl, rfl, rfl, rfl⟩

lemma pwmReach_const {s s2 : Servo} (h : PwmReach s s2) :
    s2.target = s.target ∧ s2.Flags = s.Flags ∧ s2.step = s.step := by
  induction h with
  | refl => exact ⟨rfl, rfl, rfl⟩
  | step now h hn ih =>
      exact ⟨(pwm_const _ now).1.trans ih.1, (pwm_const _ now).2.1.trans ih.2.1,
        (pwm_const _ now).2.2.1.trans ih.2.2⟩

lemma pwm_idle_pos {s : Servo} (now : ℚ)
    (h : s.idle = true → s.position = s.target) :
    (s.pwm now).1.idle = true → (s.pwm now).1.position = (s.pwm now).1.target := by
  by_cases h1 : s.position = s.target ∧ s.idle = true
  · unfold Servo.pwm
    rw [if_pos h1]
    exact fun _ => h1.1
  · have hidle : s.idle = false := by
      rcases Bool.eq_false_or_eq_true s.idle with ht | hf
      · exact absurd ⟨h ht, ht⟩ h1
      · exact hf
    unfold Servo.pwm
    rw [if_neg h1]
    dsimp only
    split_ifs with h2 h3 h4 <;> intro hx <;> simp_all

lemma pwmReach_idle {s s2 : Servo} (h : PwmReach s s2)
    (h0 : s.idle = true → s.position = s.target) :
    s2.idle = true → s2.position = s2.target := by
  induction h with
  | refl => exact h0
  | step now h hn ih => exact pwm_idle_pos now ih

/-- C10: a pwm sample taken while the servo is idle at its target returns
the previously emitted pwm value (lastPWM), does not broadcast, and the
whole state - position, target, idle, lastPWM, the deltaT timestamp and
the pin - is returned unchanged: a settled servo is never mutated by
sampling. -/
theorem pwm_idle_noop (s : Servo) (now : ℚ) (h1 : s.position = s.target)
    (h2 : s.idle = true) : s.pwm now = (s, s.lastPWM, false) := by
  unfold Servo.pwm
  rw [if_pos ⟨h1, h2⟩]

theorem pwm_idle_noop_witness :
    (Servo.New 1).pwm 5 = (Servo.New 1, (Servo.New 1).lastPWM, false) :=
  pwm_idle_noop (Servo.New 1) 5 rfl rfl

/-- C6: Stop on an already-idle servo (idle with position = target) changes
nothing - the state is returned exactly as it was - and still broadcasts;
in general Stop sets target = position, forces idle and broadcasts. -/
theorem stop_idempotent_on_idle (s : Servo) (h1 : s.idle = true)
    (h2 : s.position = s.target) :
    (s.Stop).1 = s ∧ (s.Stop).2 = true ∧
    ∀ u : Servo, (u.Stop).1.target = (u.Stop).1.position ∧
      (u.Stop).1.idle = true ∧ (u.Stop).2 = true := by
  refine ⟨?_, rfl, fun u => ⟨rfl, rfl, rfl⟩⟩
  show ({ s with target := s.position, idle := true } : Servo) = s
  cases s
  simp_all

theorem stop_idempotent_on_idle_witness :
    ((Servo.New 2).Stop).1 = Servo.New 2 ∧ ((Servo.New 2).Stop).2 = true :=
  ⟨(stop_idempotent_on_idle (Servo.New 2) rfl rfl).1,
    (stop_idempotent_on_idle (Servo.New 2) rfl rfl).2.1⟩

/-- C3 counterexample: the claimed equivalence "settled iff position =
target" fails on the code: after SetPosition(5) on a fresh servo - a state
reachable through the public operations - the position equals the target
but the idle flag is false (SetPosition marks the servo as moving so the
manager emits one more pwm sample). -/
theorem settled_iff_counterexample :
    Reachable ((Servo.New 1).SetPosition 5) ∧
    ((Servo.New 1).SetPosition 5).position = ((Servo.New 1).SetPosition 5).target ∧
    ((Servo.New 1).SetPosition 5).idle = false :=
  ⟨Reachable.setPosition 5 (Reachable.new 1), rfl, rfl⟩

/-- C3 amended: over all states reachable through the public operations
(New, Flags assignment, MoveTo, SetSpeed, SetPosition, Stop and the
stepper pwm), the settled flag implies position = target; the converse
direction of the claimed iff is refuted by settled_iff_counterexample. -/
theorem settled_implies_position_eq_target {s : Servo} (h : Reachable s) :
    s.idle = true → s.position = s.target := by
  induction h with
  | new gp => exact fun _ => rfl
  | setFlags f h ih => exact ih
  | moveTo t now h ih =>
      intro hi
      simp [Servo.moveTo] at hi
  | setSpeed p h ih => exact ih
  | setPosition p h ih =>
      intro hi
      simp [Servo.SetPosition] at hi
  | stop h ih => exact fun _ => rfl
  | pwm now h hn ih => exact pwm_idle_pos now ih

theorem settled_implies_position_eq_target_witness :
    (Servo.New 1).position = (Servo.New 1).target :=
  settled_implies_position_eq_target (Reachable.new 1) rfl

/-- C2: a non-trivial pwm step forms the candidate displacement
speed x elapsed time, where the elapsed time is counted from the previous
sample (deltaT, which the step advances to now - not from motion start);
if the distance to the target is at most the displacement the position
snaps to the target, the servo settles and broadcasts, otherwise the
signed displacement is added to the position; the emitted value is the
affine remap of the new position from [0, 180] to [MinPulse, MaxPulse]. -/
theorem pwm_step_spec (s : Servo) (now : ℚ)
    (h : ¬(s.position = s.target ∧ s.idle = true)) :
    (s.pwm now).1.deltaT = now ∧
    (s.pwm now).2.1 = remap (s.pwm now).1.position 0 180 s.MinPulse s.MaxPulse ∧
    (|s.target - s.position| ≤ (now - s.deltaT) * s.step →
      (s.pwm now).1.position = s.target ∧ (s.pwm now).1.idle = true ∧
      (s.pwm now).2.2 = true) ∧
    ((now - s.deltaT) * s.step < |s.target - s.position| →
      (s.pwm now).1.position = s.position +
        (if s.target < s.position then -((now - s.deltaT) * s.step)
          else (now - s.deltaT) * s.step) ∧
      (s.pwm now).1.idle = s.idle ∧ (s.pwm now).2.2 = false) := by
  unfold Servo.pwm
  rw [if_neg h]
  dsimp only
  by_cases h2 : s.target < s.position
  · rw [if_pos h2]
    have habs : |s.target - s.position| = s.position - s.target := by
      rw [abs_sub_comm]
      exact abs_of_nonneg (by linarith)
    by_cases h3 : s.position - (now - s.deltaT) * s.step ≤ s.target
    · rw [if_pos h3, if_pos rfl]
      refine ⟨rfl, rfl, fun _ => ⟨rfl, rfl, rfl⟩, fun hlt => ?_⟩
      rw [habs] at hlt
      exact absurd hlt (not_lt.mpr (by linarith))
    · rw [if_neg h3]
      have hne : ¬(s.position - (now - s.deltaT) * s.step = s.target) :=
        fun he => h3 (le_of_eq he)
      rw [if_neg hne]
      push_neg at h3
      refine ⟨rfl, rfl, fun hle => ?_, fun _ => ⟨?_, rfl, rfl⟩⟩
      · rw [habs] at hle
        exact absurd hle (not_le.mpr (by linarith))
      · rw [if_pos h2]
        ring
  · rw [if_neg h2]
    push_neg at h2
    have habs : |s.target - s.position| = s.target - s.position :=
      abs_of_nonneg (by linarith)
    by_cases h3 : s.position + (now - s.deltaT) * s.step ≥ s.target
    · rw [if_pos h3, if_pos rfl]
      refine ⟨rfl, rfl, fun _ => ⟨rfl, rfl, rfl⟩, fun hlt => ?_⟩
      rw [habs] at hlt
      exact absurd hlt (not_lt.mpr (by linarith))
    · rw [if_neg h3]
      have hne : ¬(s.position + (now - s.deltaT) * s.step = s.target) :=
        fun he => h3 (ge_of_eq he)
      rw [if_neg hne]
      push_neg at h3
      refine ⟨rfl, rfl, fun hle => ?_, fun _ => ⟨?_, rfl, rfl⟩⟩
      · rw [habs] at hle
        exact absurd hle (not_le.mpr (by linarith))
      · rw [if_neg (not_lt.mpr h2)]

theorem pwm_step_spec_witness :
    (((Servo.New 1).moveTo 90 0).pwm 1).1.deltaT = 1 ∧
    (((Servo.New 1).moveTo 90 0).pwm 1).2.1 =
      remap (((Servo.New 1).moveTo 90 0).pwm 1).1.position 0 180
        ((Servo.New 1).moveTo 90 0).MinPulse ((Servo.New 1).moveTo 90 0).MaxPulse ∧
    (((Servo.New 1).moveTo 90 0).pwm 1).1.position =
      ((Servo.New 1).moveTo 90 0).target ∧
    (((Servo.New 1).moveTo 90 0).pwm 1).1.idle = true ∧
    (((Servo.New 1).moveTo 90 0).pwm 1).2.2 = true := by
  have hmain := pwm_step_spec ((Servo.New 1).moveTo 90 0) 1 (by simp [Servo.moveTo])
  have hcond : |((Servo.New 1).moveTo 90 0).target -
      ((Servo.New 1).moveTo 90 0).position| ≤
      (1 - ((Servo.New 1).moveTo 90 0).deltaT) * ((Servo.New 1).moveTo 90 0).step := by
    norm_num [Servo.moveTo, Servo.New, clamp, flag.is, Centered, Normalized, maxS,
      abs_of_nonneg]
  exact ⟨hmain.1, hmain.2.1, (hmain.2.2.1 hcond).1, (hmain.2.2.1 hcond).2.1,
    (hmain.2.2.1 hcond).2.2⟩

lemma pwm_bounds {s : Servo} (now : ℚ) (hn : s.deltaT ≤ now)
    (p0 : 0 ≤ s.position) (p1 : s.position ≤ 180) (t0 : 0 ≤ s.target)
    (t1 : s.target ≤ 180) (st : 0 ≤ s.step) :
    0 ≤ (s.pwm now).1.position ∧ (s.pwm now).1.position ≤ 180 := by
  have hd : 0 ≤ (now - s.deltaT) * s.step := mul_nonneg (by linarith) st
  by_cases h1 : s.position = s.target ∧ s.idle = true
  · unfold Servo.pwm
    rw [if_pos h1]
    exact ⟨p0, p1⟩
  · unfold Servo.pwm
    rw [if_neg h1]
    dsimp only
    split_ifs with h2 h3 h4 <;> dsimp only <;> constructor <;> linarith

lemma reachable_bounds {s : Servo} (h : Reachable s) :
    0 ≤ s.position ∧ s.position ≤ 180 ∧ 0 ≤ s.target ∧ s.target ≤ 180 ∧
    0 ≤ s.step ∧ 0 ≤ s.maxStep := by
  induction h with
  | new gp =>
      refine ⟨le_refl 0, ?_, le_refl 0, ?_, ?_, ?_⟩ <;> norm_num [Servo.New, maxS]
  | setFlags f h ih => exact ih
  | moveTo t now h ih =>
      obtain ⟨p0, p1, t0, t1, st, ms⟩ := ih
      refine ⟨p0, p1, ?_, ?_, st, ms⟩ <;>
        (simp only [Servo.moveTo]
         split_ifs <;>
           first
             | assumption
             | exact (clamp_mem _ (by norm_num)).1
             | exact (clamp_mem _ (by norm_num)).2)
  | setSpeed p h ih =>
      obtain ⟨p0, p1, t0, t1, st, ms⟩ := ih
      exact ⟨p0, p1, t0, t1,
        mul_nonneg ms (clamp_mem p (by norm_num : (0:ℚ) ≤ 1)).1, ms⟩
  | setPosition p h ih =>
      obtain ⟨p0, p1, t0, t1, st, ms⟩ := ih
      refine ⟨?_, ?_, ?_, ?_, st, ms⟩ <;>
        (simp only [Servo.SetPosition]
         split_ifs <;>
           first
             | exact (clamp_mem _ (by norm_num)).1
             | exact (clamp_mem _ (by norm_num)).2)
  | stop h ih =>
      obtain ⟨p0, p1, t0, t1, st, ms⟩ := ih
      exact ⟨p0, p1, p0, p1, st, ms⟩
  | pwm now h hn ih =>
      rename_i u
      obtain ⟨p0, p1, t0, t1, st, ms⟩ := ih
      have hb := pwm_bounds now hn p0 p1 t0 t1 st
      obtain ⟨hT, hF, hS, hM⟩ := pwm_const u now
      refine ⟨hb.1, hb.2, ?_, ?_, ?_, ?_⟩
      · rw [hT]; exact t0
      · rw [hT]; exact t1
      · rw [hS]; exact st
      · rw [hM]; exact ms

/-- C4: every state reachable through the public operations with
arbitrary rational inputs keeps the internal (pre-transform) position and
target within [0, 180]: out-of-range inputs are clamped, never an
error. -/
theorem reachable_position_target_in_range {s : Servo} (h : Reachable s) :
    0 ≤ s.position ∧ s.position ≤ 180 ∧ 0 ≤ s.target ∧ s.target ≤ 180 := by
  obtain ⟨a, b, c, d, -, -⟩ := reachable_bounds h
  exact ⟨a, b, c, d⟩

theorem reachable_position_target_in_range_witness :
    0 ≤ (((Servo.New 1).moveTo 999 0).SetPosition (-55)).position ∧
    (((Servo.New 1).moveTo 999 0).SetPosition (-55)).position ≤ 180 ∧
    0 ≤ (((Servo.New 1).moveTo 999 0).SetPosition (-55)).target ∧
    (((Servo.New 1).moveTo 999 0).SetPosition (-55)).target ≤ 180 :=
  reachable_position_target_in_range
    (Reachable.setPosition (-55) (Reachable.moveTo 999 0 (Reachable.new 1)))

lemma pwm_freeze_step {u : Servo} (now : ℚ) (hs : u.step = 0)
    (he : u.position = u.target) :
    (u.pwm now).1.position = u.position := by
  by_cases hi : u.position = u.target ∧ u.idle = true
  · unfold Servo.pwm
    rw [if_pos hi]
  · unfold Servo.pwm
    rw [if_neg hi]
    dsimp only
    rw [hs, mul_zero, sub_zero, add_zero]
    simp [he]

lemma pwmReach_freeze {m s2 : Servo} (h : PwmReach m s2) (hstep : m.step = 0)
    (hpt : m.position = m.target) :
    s2.position = m.position := by
  induction h with
  | refl => rfl
  | step now h hn ih =>
      rename_i u
      have hu : u.step = 0 := (pwmReach_const h).2.2.trans hstep
      have hut : u.target = m.target := (pwmReach_const h).1
      have hue : u.position = u.target := by rw [ih, hut, ← hpt]
      exact (pwm_freeze_step now hu hue).trans ih

/-- C5: when the speed is zero (step = 0), moveTo leaves the position
unchanged and snaps the target to the current position, and no subsequent
sequence of pwm sampling steps ever moves the servo. -/
theorem speed_zero_never_moves (s : Servo) (t now : ℚ) (s2 : Servo)
    (h : s.step = 0) (hr : PwmReach (s.moveTo t now) s2) :
    (s.moveTo t now).position = s.position ∧
    (s.moveTo t now).target = s.position ∧ s2.position = s.position := by
  have ht : (s.moveTo t now).target = s.position := by
    simp only [Servo.moveTo]
    rw [if_pos h]
  have h3 : s2.position = (s.moveTo t now).position := pwmReach_freeze hr h ht.symm
  exact ⟨rfl, ht, h3⟩

theorem speed_zero_never_moves_witness :
    ((((Servo.New 1).SetSpeed 0).moveTo 50 0).position =
      ((Servo.New 1).SetSpeed 0).position) ∧
    ((((Servo.New 1).SetSpeed 0).moveTo 50 0).target =
      ((Servo.New 1).SetSpeed 0).position) ∧
    (((((Servo.New 1).SetSpeed 0).moveTo 50 0).pwm 1).1.position =
      ((Servo.New 1).SetSpeed 0).position) :=
  speed_zero_never_moves ((Servo.New 1).SetSpeed 0) 50 0
    (((((Servo.New 1).SetSpeed 0).moveTo 50 0).pwm 1).1)
    (by norm_num [Servo.SetSpeed, Servo.New, clamp, maxS])
    (PwmReach.step 1 (PwmReach.refl _) (by norm_num [Servo.moveTo]))

/-- C1: for any target t in [-1000, 1000] and any flag setting, once a
moveTo(t) on a fresh servo has settled (the idle flag is observed true
after any sequence of pwm sampling steps, which is when Wait returns),
Position equals the flag-adjusted clamp of t to [0, 180]: t is
inverse-transformed, clamped, and Position re-applies the forward
transform to the settled position. -/
theorem moveTo_wait_position_spec (G : Int) (f : flag) (t now : ℚ)
    (hlo : -1000 ≤ t) (hhi : t ≤ 1000) (s2 : Servo)
    (hr : PwmReach (Servo.moveTo { Servo.New G with Flags := f } t now) s2)
    (hidle : s2.idle = true) :
    s2.Position = flagAdjustOut f (clamp (flagAdjustIn f t) 0 180) := by
  have htgt : (Servo.moveTo { Servo.New G with Flags := f } t now).target =
      clamp (flagAdjustIn f t) 0 180 := by
    simp only [Servo.moveTo, flagAdjustIn]
    rw [if_neg (by norm_num [Servo.New, maxS] :
      ¬(({ Servo.New G with Flags := f } : Servo).step = 0))]
  have hpt : s2.position = s2.target :=
    pwmReach_idle hr (by simp [Servo.moveTo]) hidle
  have hFlags : s2.Flags = f := (pwmReach_const hr).2.1
  have hT : s2.target = clamp (flagAdjustIn f t) 0 180 :=
    (pwmReach_const hr).1.trans htgt
  unfold Servo.Position flagAdjustOut
  dsimp only
  rw [hFlags, hpt, hT]

theorem moveTo_wait_position_spec_witness :
    ((Servo.moveTo { Servo.New 1 with Flags := 0 } 200 0).pwm 1).1.Position =
      flagAdjustOut 0 (clamp (flagAdjustIn 0 200) 0 180) :=
  moveTo_wait_position_spec 1 0 200 0 (by norm_num) (by norm_num) _
    (PwmReach.step 1 (PwmReach.refl _) (by norm_num [Servo.moveTo]))
    (by norm_num [Servo.pwm, Servo.moveTo, Servo.New, clamp, flag.is, Centered,
      Normalized, maxS])

lemma flushLine_foldl_length (data : List (gpio × pwm)) (acc : String) :
    acc.length ≤ (data.foldl
      (fun acc e => acc ++ " " ++ toString e.1 ++ "=" ++ fixed6 e.2) acc).length := by
  induction data generalizing acc with
  | nil => exact le_refl _
  | cons e rest ih =>
      refine le_trans ?_ (ih (acc ++ " " ++ toString e.1 ++ "=" ++ fixed6 e.2))
      simp only [String.length_append]
      omega

lemma flushLine_pos {data : List (gpio × pwm)} (h : data ≠ []) :
    0 < (flushLine data).length := by
  obtain ⟨e, rest, rfl⟩ := List.exists_cons_of_ne_nil h
  have h1 := flushLine_foldl_length rest ("" ++ " " ++ toString e.1 ++ "=" ++ fixed6 e.2)
  unfold flushLine
  rw [List.foldl_cons]
  refine lt_of_lt_of_le ?_ h1
  simp only [String.length_append]
  have : (" " : String).length = 1 := rfl
  omega

/-- C7: on a flush tick with non-empty pending data, the dispatcher
serializes all entries as " pin=value" tokens with six fractional digits
into a single line, writes exactly that line, and clears the pending map;
with empty pending data no write occurs and nothing changes.  The fixed6
rendering always carries exactly six digits after the decimal point. -/
theorem flushTick_spec (data : List (gpio × pwm)) (q : ℚ) (h : data ≠ []) :
    (flushTick data).1 = [] ∧
    (flushTick data).2 = some (flushLine data) ∧
    flushLine data ≠ "" ∧
    flushTick ([] : List (gpio × pwm)) = ([], none) ∧
    (∃ a b : String, fixed6 q = a ++ "." ++ b ∧ b.length = 6) := by
  have hlen : data.length ≠ 0 := by
    intro h0
    exact h (List.length_eq_zero.mp h0)
  have hline := flushLine_pos h
  refine ⟨?_, ?_, ?_, ?_, ?_⟩
  · unfold flushTick
    rw [if_pos hlen]
  · unfold flushTick blaster.flush
    rw [if_pos hlen]
    dsimp only
    rw [if_neg (by omega)]
  · intro h0
    rw [h0] at hline
    exact absurd hline (by norm_num)
  · rfl
  · exact ⟨(if q < 0 then "-" else "") ++
      toString ((⌊|q| * 1000000 + 1 / 2⌋).toNat / 1000000),
      fracDigits6 ((⌊|q| * 1000000 + 1 / 2⌋).toNat % 1000000), rfl, rfl⟩

theorem flushTick_spec_witness :
    (flushTick [(14, (1/4 : ℚ))]).1 = [] ∧
    (flushTick [(14, (1/4 : ℚ))]).2 = some (flushLine [(14, (1/4 : ℚ))]) ∧
    flushLine [(14, (1/4 : ℚ))] ≠ "" ∧
    flushTick ([] : List (gpio × pwm)) = ([], none) ∧
    (∃ a b : String, fixed6 (1/4 : ℚ) = a ++ "." ++ b ∧ b.length = 6) :=
  flushTick_spec [(14, (1/4 : ℚ))] (1/4) (by simp)

/-- C8: the subscribe/unsubscribe arm always recomputes the sample
interval from the new registry size n as Duration(log10(n+1)*3 + 1) * 3ms
(the integer factor being the floor of log10(n+1)*3 + 1, shown against
the real logarithm), and the interval is monotonically non-decreasing in
the number of registered actuators. -/
theorem sampleInterval_recompute_monotone (reg : List gpio)
    (data : List (gpio × pwm)) (pin : gpio) (add : Bool) (m n : ℕ)
    (hmn : m ≤ n) :
    (handleServoPkg reg data pin add).2.2 =
      sampleIntervalMs (handleServoPkg reg data pin add).1.length ∧
    sampleIntervalMs m ≤ sampleIntervalMs n ∧
    (updateFactor n : ℤ) = ⌊Real.logb 10 ((n : ℝ) + 1) * 3 + 1⌋ := by
  refine ⟨?_, ?_, ?_⟩
  · unfold handleServoPkg
    split_ifs <;> rfl
  · unfold sampleIntervalMs updateFactor
    have h1 := Nat.log_mono_right (b := 10)
      (Nat.pow_le_pow_left (by omega : m + 1 ≤ n + 1) 3)
    omega
  · have hcast : ((n : ℝ) + 1) = ((n + 1 : ℕ) : ℝ) := by push_cast; ring
    have h3 : Real.logb 10 ((n : ℝ) + 1) * 3 + 1 =
        Real.logb 10 ((((n + 1) ^ 3 : ℕ) : ℝ)) + 1 := by
      rw [hcast]
      have h4 : (((n + 1) ^ 3 : ℕ) : ℝ) = (((n + 1 : ℕ) : ℝ)) ^ 3 := by
        push_cast; ring
      rw [h4, Real.logb_pow]
      ring
    rw [h3, Int.floor_add_one]
    have h10 : ((10 : ℕ) : ℝ) = (10 : ℝ) := by norm_num
    rw [← h10, Real.floor_logb_natCast (by positivity), Int.log_natCast]
    unfold updateFactor
    push_cast
    ring

theorem sampleInterval_recompute_monotone_witness :
    (handleServoPkg [] [] 4 true).2.2 =
      sampleIntervalMs (handleServoPkg [] [] 4 true).1.length ∧
    sampleIntervalMs 0 ≤ sampleIntervalMs 2 ∧
    (updateFactor 2 : ℤ) = ⌊Real.logb 10 (((2 : ℕ) : ℝ) + 1) * 3 + 1⌋ :=
  sampleInterval_recompute_monotone [] [] 4 true 0 2 (by norm_num)
